/-
Verification of the python-astm protocol library against its
natural-language specification.

The development shallowly embeds the relevant parts of the source:

* `astm/constants.py`  — control bytes and separators (one-byte strings in
  the source, modelled as their byte value `Nat`);
* `astm/codec.py`      — the framing codec (`encode_*`, `decode_*`,
  `make_checksum`, `make_chunks`, `split`, `join`, `is_chunked_message`);
* `astm/client.py`     — `RecordsStateMachine` / `_default_sm`,
  `Client.push`, `Client.terminate`, `Client._retry_enq`;
* `astm/server.py`     — `RequestHandler.on_eot`,
  `RequestHandler.handle_message`;
* `astm/protocol.py`   — `ASTMProtocol.push` (`_last_sent_data`).

Byte strings are modelled as `List Nat`; Python exceptions raised by the
modelled code paths are modelled as `none : Option _`.  Text decoding and
encoding with the session encoding is folded into the identity on bytes
(as with a byte-transparent codec such as latin-1): the encoding argument
only converts text to bytes and back and plays no role in the framing
logic that the claims are about.
-/
import Mathlib

set_option maxRecDepth 8000

namespace Astm

/-! ### Constants (`astm/constants.py`)

The source defines the control tokens as one-byte strings; we model each
as its byte value. -/

def STX : Nat := 0x02

def ETX : Nat := 0x03

def EOT : Nat := 0x04

def ENQ : Nat := 0x05

def ACK : Nat := 0x06

def NAK : Nat := 0x15

def ETB : Nat := 0x17

def LF : Nat := 0x0A

def CR : Nat := 0x0D

def CRLF : List Nat := [CR, LF]

def RECORD_SEP : Nat := 0x0D

def FIELD_SEP : Nat := 0x7C

def REPEAT_SEP : Nat := 0x5C

def COMPONENT_SEP : Nat := 0x5E

def ESCAPE_SEP : Nat := 0x26

/-- Default encoding from `astm/constants.py`: `ENCODING = 'utf-8'`. -/
def ENCODING : String := "utf-8"

/-- Default encoding of the codec entry points (`codec.decode(data,
encoding=ENCODING)` and friends). -/
def codec_default_encoding : String := ENCODING

/-- Default encoding of the shared protocol engine
(`ASTMProtocol.encoding = ENCODING` in `astm/protocol.py`), inherited by
the client engine. -/
def protocol_default_encoding : String := ENCODING

/-- Default encoding of the server records dispatcher
(`BaseRecordsDispatcher.encoding = ENCODING` in `astm/server.py`). -/
def dispatcher_default_encoding : String := ENCODING

/-! ### Checksum (`codec.make_checksum`) -/

/-- One hex digit as Python renders it after `.upper()`: `0`-`9` then
`A`-`F`. -/
def hex_digit (d : Nat) : Nat := if d < 10 then 48 + d else 55 + d

/-- Value of `hex(sum(message) & 0xFF)[2:].upper().zfill(2)` for a
non-empty message: two uppercase hex characters of the byte sum mod 256
(`zfill` supplies the leading `0` when the sum is below 16). -/
def checksum_digits (m : List Nat) : List Nat :=
  [hex_digit (m.sum % 256 / 16), hex_digit (m.sum % 256 % 16)]

/-- `make_checksum` from `codec.py`.  The source first evaluates
`message[0]`, which raises `IndexError` on an empty message (modelled as
`none`); otherwise it returns the two checksum characters. -/
def make_checksum (m : List Nat) : Option (List Nat) :=
  match m with
  | [] => none
  | _ :: _ => some (checksum_digits m)

/-- Numeric value of one uppercase hex character. -/
def hex_char_value (c : Nat) : Nat := if c ≤ 57 then c - 48 else c - 55

/-- Numeric value of a two-character checksum. -/
def hex_pair_value : List Nat → Nat
  | [a, b] => 16 * hex_char_value a + hex_char_value b
  | _ => 0

/-! ### Records (`codec.encode_record` and friends)

A decoded/encodable field is `None`, a scalar, a component (list of
optional scalars) or a repeated component (list of components), exactly
the shapes `codec.decode_record` produces and `codec.encode_record`
consumes for well-typed input.  The dynamic `isinstance` dispatch of the
source collapses to the constructor match: `bytes`/`unicode` values are
the `str` case, `None` is `null`, an iterable of scalars is `comp`, and
an iterable whose items are iterables is `rep` (in the source
`encode_component` restarts on the whole component via
`encode_repeated_component` as soon as it meets an iterable item). -/

inductive Field
  | null
  | str (s : List Nat)
  | comp (c : List (Option (List Nat)))
  | rep (r : List (List (Option (List Nat))))
deriving DecidableEq

/-- Encoding of a single component item: `None` encodes as the empty
string, a scalar as its bytes. -/
def encode_scalar : Option (List Nat) → List Nat
  | none => []
  | some s => s

/-- Python's `bytes.rstrip(sep)` for a one-byte `sep`. -/
def rstrip (sep : Nat) (s : List Nat) : List Nat :=
  (s.reverse.dropWhile (fun b => b == sep)).reverse

/-- `codec.encode_component` for a component of scalars:
`COMPONENT_SEP.join(items).rstrip(COMPONENT_SEP)`. -/
def encode_component (c : List (Option (List Nat))) : List Nat :=
  rstrip COMPONENT_SEP ([COMPONENT_SEP].intercalate (c.map encode_scalar))

/-- `codec.encode_repeated_component`:
`REPEAT_SEP.join(encode_component(item) for item in components)`. -/
def encode_repeated_component (r : List (List (Option (List Nat)))) : List Nat :=
  [REPEAT_SEP].intercalate (r.map encode_component)

/-- Per-field branch of `codec.encode_record`. -/
def encode_field : Field → List Nat
  | .null => []
  | .str s => s
  | .comp c => encode_component c
  | .rep r => encode_repeated_component r

/-- `codec.encode_record`: `FIELD_SEP.join(fields)`. -/
def encode_record (rec : List Field) : List Nat :=
  [FIELD_SEP].intercalate (rec.map encode_field)

/-- `str(n).encode()` for `n < 10`. -/
def digit_byte (n : Nat) : Nat := 48 + n

/-- The `data` variable of `codec.encode_message`:
`str(seq % 8) ‖ records joined by RECORD_SEP ‖ CR ‖ ETX`. -/
def message_frame (seq : Nat) (records : List (List Field)) : List Nat :=
  digit_byte (seq % 8) :: [RECORD_SEP].intercalate (records.map encode_record) ++ [CR, ETX]

/-- `codec.encode_message`:
`STX ‖ data ‖ make_checksum(data) ‖ CR ‖ LF`.  `data` starts with the
sequence digit and is never empty, so the `IndexError` branch of
`make_checksum` cannot fire and its value is `checksum_digits data`. -/
def encode_message (seq : Nat) (records : List (List Field)) : List Nat :=
  STX :: message_frame seq records ++ checksum_digits (message_frame seq records) ++ [CR, LF]

/-! ### Decoding (`codec.decode_*`) -/

/-- `codec.decode_component`: split on `COMPONENT_SEP`, empty items
decode to `None`. -/
def decode_component (f : List Nat) : List (Option (List Nat)) :=
  (f.splitOn COMPONENT_SEP).map fun item => if item = [] then none else some item

/-- `codec.decode_repeated_component`: split on `REPEAT_SEP`. -/
def decode_repeated_component (c : List Nat) : List (List (Option (List Nat))) :=
  (c.splitOn REPEAT_SEP).map decode_component

/-- Loop body of `codec.decode_record`: repeated components are detected
first (`REPEAT_SEP in item`), then components, and the final
`[None, item][bool(item)]` nullifies exactly the empty strings (the two
list-producing branches always return non-empty — hence truthy —
lists). -/
def decode_item (item : List Nat) : Field :=
  if REPEAT_SEP ∈ item then .rep (decode_repeated_component item)
  else if COMPONENT_SEP ∈ item then .comp (decode_component item)
  else if item = [] then .null
  else .str item

/-- `codec.decode_record`: split on `FIELD_SEP`. -/
def decode_record (rec : List Nat) : List Field :=
  (rec.splitOn FIELD_SEP).map decode_item

/-- Tail of `codec.decode_frame` after the terminator has been removed:
the leading byte must be an ASCII digit (`ValueError`, i.e. `none`,
otherwise; an empty frame has no digit), the rest is split on
`RECORD_SEP` and decoded record-wise. -/
def decode_frame_core : List Nat → Option (Nat × List (List Field))
  | [] => none
  | b :: rest =>
    if 48 ≤ b ∧ b ≤ 57 then some (b - 48, (rest.splitOn RECORD_SEP).map decode_record)
    else none

/-- `codec.decode_frame`: strip a trailing `CR ETX` (checked first) or a
trailing `ETB`; anything else is a `ValueError` (`none`). -/
def decode_frame (frame : List Nat) : Option (Nat × List (List Field)) :=
  if frame.drop (frame.length - 2) = [CR, ETX] then
    decode_frame_core (frame.take (frame.length - 2))
  else if frame.drop (frame.length - 1) = [ETB] then
    decode_frame_core (frame.take (frame.length - 1))
  else none

/-- `codec.decode_message`.  The envelope checks (`startswith(STX)`,
`endswith(CRLF)`) raise `ValueError` when they fail, the checksum
comparison is an `assert` (both modelled as `none`; `make_checksum` of an
empty frame also raises, which the `some`-comparison absorbs).  On
success the result is the frame sequence number, the decoded records and
the transmitted checksum. -/
def decode_message (msg : List Nat) : Option (Nat × List (List Field) × List Nat) :=
  if msg.take 1 = [STX] ∧ msg.drop (msg.length - 2) = [CR, LF] then
    let frame_cs := (msg.drop 1).take (msg.length - 3)
    let frame := frame_cs.take (frame_cs.length - 2)
    let cs := frame_cs.drop (frame_cs.length - 2)
    if make_checksum frame = some cs then
      (decode_frame frame).map fun sr => (sr.1, sr.2, cs)
    else none
  else none

/-! ### Chunking (`codec.make_chunks`, `codec.split`) -/

/-- `codec.make_chunks`: cut `s` into consecutive pieces of `n` bytes
(the Python `izip_longest` construction yields the groups
`s[i*n:(i+1)*n]` for `i < ceil(len(s)/n)`; for `n = 0` it yields no
groups at all). -/
def make_chunks (s : List Nat) (n : Nat) : List (List Nat) :=
  if n = 0 then []
  else (List.range ((s.length + n - 1) / n)).map fun i => (s.drop (i * n)).take n

/-- One non-terminal chunk of `codec.split`:
`STX ‖ seq digit ‖ piece ‖ ETB ‖ checksum ‖ CRLF` (the checksummed item
starts with the digit, so `make_checksum` cannot raise). -/
def chunk_frame_mid (seqd : Nat) (piece : List Nat) : List Nat :=
  STX :: (digit_byte seqd :: piece ++ [ETB])
    ++ checksum_digits (digit_byte seqd :: piece ++ [ETB]) ++ [CR, LF]

/-- The terminal chunk of `codec.split`:
`STX ‖ seq digit ‖ piece ‖ CR ETX ‖ checksum ‖ CRLF`. -/
def chunk_frame_last (seqd : Nat) (piece : List Nat) : List Nat :=
  STX :: (digit_byte seqd :: piece ++ [CR, ETX])
    ++ checksum_digits (digit_byte seqd :: piece ++ [CR, ETX]) ++ [CR, LF]

/-- `codec.split`.  The source unpacks `stx, frame, msg, tail` as
`msg[:1], msg[1:2], msg[2:-6], msg[-6:]` and `assert`s that `stx` is STX,
`frame` a digit, `tail` ends with CRLF (equivalently: the whole message
ends with CRLF) and `size >= 7`; failed asserts are `none`.  It then cuts
the body into pieces of `size - 7` bytes and reframes them.  When
`make_chunks` produces no pieces (empty body, or `size = 7`),
`chunks[-1]` raises `IndexError` (`none`).  The terminal chunk reuses the
loop index left behind by the `enumerate` loop (`0` when the loop never
ran, `len - 1` otherwise) plus one. -/
def split (msg : List Nat) (size : Nat) : Option (List (List Nat)) :=
  match (msg.drop 1).take 1 with
  | [d] =>
    if msg.take 1 = [STX] ∧ (48 ≤ d ∧ d ≤ 57)
        ∧ msg.drop (msg.length - 2) = [CR, LF] ∧ 7 ≤ size then
      match (make_chunks ((msg.drop 2).take (msg.length - 8)) (size - 7)).getLast? with
      | none => none
      | some last =>
        some ((make_chunks ((msg.drop 2).take (msg.length - 8)) (size - 7)).dropLast.enum.map
            (fun p => chunk_frame_mid ((p.1 + (d - 48)) % 8) p.2)
          ++ [chunk_frame_last
              (((make_chunks ((msg.drop 2).take (msg.length - 8)) (size - 7)).dropLast.length - 1
                + (d - 48) + 1) % 8) last])
    else none
  | _ => none

/-- `codec.join`: `b'1' + b''.join(c[2:-5] for c in chunks) + ETX`, then
the full envelope with a freshly computed checksum (the checksummed
message starts with the digit `1`, so `make_checksum` cannot raise). -/
def join (chunks : List (List Nat)) : List Nat :=
  STX :: (49 :: (chunks.map fun c => (c.drop 2).take (c.length - 7)).flatten ++ [ETX])
    ++ checksum_digits (49 :: (chunks.map fun c => (c.drop 2).take (c.length - 7)).flatten ++ [ETX])
    ++ [CR, LF]

/-- `codec.is_chunked_message`: true iff the message is at least 5 bytes
long and its first `ETB` sits exactly 5 bytes from the end. -/
def is_chunked_message (m : List Nat) : Bool :=
  if m.length < 5 then false
  else if ETB ∉ m then false
  else m.indexOf ETB == m.length - 5

/-! ### Normalization

`decode_record ∘ encode_record` does not return a well-typed record
unchanged: trailing empty components are trimmed, empty scalars become
absent, a component reduced to its first scalar comes back as a plain
scalar, and a one-element repeated component comes back as its only
component.  `normalize` states that map explicitly. -/

/-- Remove the trailing component items that encode to the empty string
(`None` and empty scalars): these are exactly the items
`rstrip(COMPONENT_SEP)` erases after the join. -/
def strip_trailing_empty (c : List (Option (List Nat))) : List (Option (List Nat)) :=
  (c.reverse.dropWhile (fun o => encode_scalar o == [])).reverse

/-- Empty scalars decode to `None`. -/
def norm_scalar : Option (List Nat) → Option (List Nat)
  | none => none
  | some s => if s = [] then none else some s

/-- What one component of a repeated component decodes back to: an empty
component decodes to the single absent item `[None]`, any other to its
trailing-stripped, `None`-normalized items. -/
def norm_component_items (c : List (Option (List Nat))) : List (Option (List Nat)) :=
  let c' := strip_trailing_empty c
  if c' = [] then [none] else c'.map norm_scalar

/-- What a top-level component field decodes back to: absent when it
strips to nothing, a plain scalar when a single item remains, a component
otherwise. -/
def norm_component (c : List (Option (List Nat))) : Field :=
  match strip_trailing_empty c with
  | [] => .null
  | [some s] => .str s
  | c' => .comp (c'.map norm_scalar)

/-- Field-level normalization. -/
def norm_field : Field → Field
  | .null => .null
  | .str s => if s = [] then .null else .str s
  | .comp c => norm_component c
  | .rep r =>
    match r with
    | [] => .null
    | [c] => norm_component c
    | _ => .rep (r.map norm_component_items)

/-- Record-list normalization: the claims' `R′`. -/
def normalize (R : List (List Field)) : List (List Field) :=
  R.map (List.map norm_field)

/-! ### Well-typed records

`wf_records` is the "well-typed record list" of the specification: a
non-empty list of non-empty records whose scalars are bytes that do not
collide with the record/field/component/repeat separators. -/

def wf_scalar (s : List Nat) : Prop :=
  ∀ b ∈ s, b < 256 ∧ b ≠ RECORD_SEP ∧ b ≠ FIELD_SEP ∧ b ≠ COMPONENT_SEP ∧ b ≠ REPEAT_SEP

instance (s : List Nat) : Decidable (wf_scalar s) :=
  inferInstanceAs (Decidable (∀ b ∈ s, _ ∧ _ ∧ _ ∧ _ ∧ _))

def wf_opt : Option (List Nat) → Prop
  | none => True
  | some s => wf_scalar s

instance : (o : Option (List Nat)) → Decidable (wf_opt o)
  | none => inferInstanceAs (Decidable True)
  | some s => inferInstanceAs (Decidable (wf_scalar s))

def wf_field : Field → Prop
  | .null => True
  | .str s => wf_scalar s
  | .comp c => ∀ o ∈ c, wf_opt o
  | .rep r => ∀ c ∈ r, ∀ o ∈ c, wf_opt o

instance : (f : Field) → Decidable (wf_field f)
  | .null => inferInstanceAs (Decidable True)
  | .str s => inferInstanceAs (Decidable (wf_scalar s))
  | .comp c => inferInstanceAs (Decidable (∀ o ∈ c, wf_opt o))
  | .rep r => inferInstanceAs (Decidable (∀ c ∈ r, ∀ o ∈ c, wf_opt o))

def wf_record (rec : List Field) : Prop := rec ≠ [] ∧ ∀ f ∈ rec, wf_field f

instance (rec : List Field) : Decidable (wf_record rec) :=
  inferInstanceAs (Decidable (_ ∧ _))

def wf_records (R : List (List Field)) : Prop := R ≠ [] ∧ ∀ rec ∈ R, wf_record rec

instance (R : List (List Field)) : Decidable (wf_records R) :=
  inferInstanceAs (Decidable (_ ∧ _))

/-! ### Record-flow state machine (`client.RecordsStateMachine`,
`client._default_sm`)

Record type codes are the bytes of their one-character strings:
`H = 72`, `P = 80`, `O = 79`, `R = 82`, `C = 67`, `L = 76`, `S = 83`,
`M = 77`; the wildcard is `* = 42`.  The machine's current state is
`none` or a type code. -/

/-- The mapping `_default_sm` is built from in `astm/client.py`. -/
def sm_mapping : List (Option Nat × List Nat) :=
  [ (none, [72]),
    (some 72, [67, 80, 76]),
    (some 80, [67, 79, 76]),
    (some 79, [67, 80, 79, 82, 76]),
    (some 82, [67, 80, 79, 82, 76]),
    (some 67, [42]),
    (some 76, [72]) ]

/-- `RecordsStateMachine.is_acceptable`: a next state outside the
mapping's keys is rejected outright; otherwise the current state's entry
must contain the wildcard `'*'` or the next state.  (Looking up a current
state that is not a key would raise `KeyError`; the machine can never
hold such a state, and we model the lookup failure as a rejection.) -/
def is_acceptable (cur : Option Nat) (state : Nat) : Bool :=
  if (sm_mapping.lookup (some state)).isNone then false
  else
    match sm_mapping.lookup cur with
    | none => false
    | some nexts => nexts.contains 42 || nexts.contains state

/-- The record type codes the specification's transition table speaks
about. -/
def type_codes : List Nat := [72, 80, 79, 82, 67, 83, 77, 76]

/-- Modelled from the spec (section 4.3): the transition table exactly as
the specification prints it, with `C` and `M` rows allowing any code.
This is the spec-side table that claim C4 compares the code against. -/
def spec_flow_table : List (Option Nat × List Nat) :=
  [ (none, [72]),
    (some 72, [67, 77, 80, 76]),
    (some 80, [67, 77, 79, 76]),
    (some 79, [67, 77, 80, 79, 82, 76]),
    (some 82, [67, 77, 80, 79, 82, 83, 76]),
    (some 83, [67, 77, 80, 79, 82, 83, 76]),
    (some 67, type_codes),
    (some 77, type_codes),
    (some 76, [72]) ]

/-- Edge relation of the specification's table. -/
def spec_edge (prev : Option Nat) (next : Nat) : Bool :=
  match spec_flow_table.lookup prev with
  | some nexts => nexts.contains next
  | none => false

/-- The transition table the code actually implements, written out as an
explicit edge table (the `'*'` row of `'C'` expanded to all keys of the
mapping). -/
def code_flow_table : List (Option Nat × List Nat) :=
  [ (none, [72]),
    (some 72, [67, 80, 76]),
    (some 80, [67, 79, 76]),
    (some 79, [67, 80, 79, 82, 76]),
    (some 82, [67, 80, 79, 82, 76]),
    (some 67, [72, 80, 79, 82, 67, 76]),
    (some 76, [72]) ]

/-- Edge relation of the code's table. -/
def code_edge (prev : Option Nat) (next : Nat) : Bool :=
  match code_flow_table.lookup prev with
  | some nexts => nexts.contains next
  | none => false

/-! ### Server request handler (`server.RequestHandler`) -/

/-- The `terminator` attribute of the asynchat-style handler: either a
byte count or a list of delimiter strings. -/
inductive TermSetting
  | count (n : Nat)
  | delimiters (ds : List (List Nat))
deriving DecidableEq

/-- The per-connection state of `RequestHandler` that the modelled
handlers read and write: `_is_transfer_state`, the chunk reassembly
buffer `_chunks`, and `terminator`. -/
structure ReqState where
  is_transfer_state : Bool
  chunks : List (List Nat)
  terminator : TermSetting
deriving DecidableEq

/-- `RequestHandler.__init__`: empty reassembly buffer, not in transfer
state, `terminator = 1`. -/
def req_initial : ReqState :=
  { is_transfer_state := false, chunks := [], terminator := .count 1 }

/-- `RequestHandler.on_eot`: in transfer state, leave transfer state and
reset the terminator; otherwise raise `InvalidState` (`none`).  The
reassembly buffer is not touched. -/
def on_eot (st : ReqState) : Option ReqState :=
  if st.is_transfer_state then
    some { st with is_transfer_state := false, terminator := .count 1 }
  else none

/-- The chunk-tracking state `RequestHandler.handle_message` works on:
the cached `is_chunked_transfer` flag (a class attribute starting out as
`None`) and the reassembly buffer `_chunks`. -/
structure SrvState where
  is_chunked_transfer : Option Bool
  chunks : List (List Nat)
deriving DecidableEq

/-- `RequestHandler.handle_message`: computes `is_chunked_transfer` only
when it is still `None`, then either appends to the reassembly buffer, or
concludes a pending chunked message through `join`, or dispatches the
single message directly.  The second component collects the payloads
handed to `self.dispatcher`. -/
def handle_message (st : SrvState) (m : List Nat) : SrvState × List (List Nat) :=
  let ict := match st.is_chunked_transfer with
    | none => is_chunked_message m
    | some b => b
  if ict then ({ is_chunked_transfer := some ict, chunks := st.chunks ++ [m] }, [])
  else if st.chunks ≠ [] then
    ({ is_chunked_transfer := some ict, chunks := [] }, [join (st.chunks ++ [m])])
  else ({ is_chunked_transfer := some ict, chunks := st.chunks }, [m])

/-- Feed a list of inbound messages to `handle_message`, collecting every
dispatcher invocation. -/
def handle_messages (st : SrvState) : List (List Nat) → SrvState × List (List Nat)
  | [] => (st, [])
  | m :: ms =>
    let r := handle_message st m
    let rest := handle_messages r.1 ms
    (rest.1, r.2 ++ rest.2)

/-! ### Client engine (`client.Client`, `protocol.ASTMProtocol`) -/

/-- The slice of the client state the modelled methods touch:
`max_message_size`, the outbound channel (`push`es performed through
`ASTMProtocol.push`), and `_last_sent_data`. -/
structure CliState where
  max_message_size : Option Nat
  outbox : List (List Nat)
  last_sent : Option (List Nat)
deriving DecidableEq

/-- `ASTMProtocol.push`: record `_last_sent_data` and hand the data to
the async channel (modelled as appending to `outbox`). -/
def proto_push (st : CliState) (data : List Nat) : CliState :=
  { st with outbox := st.outbox ++ [data], last_sent := some data }

/-- `Client.push` (the timer argument does not affect the channel and is
omitted): with `max_message_size` set, data longer than the limit is
split and each chunk pushed — data at most the limit long falls through
both branches and nothing is pushed; with no limit the data is pushed
as-is.  A failing `split` propagates its exception (`none`). -/
def client_push (st : CliState) (data : List Nat) : Option CliState :=
  match st.max_message_size with
  | some m =>
    if data.length > m then (split data m).map (List.foldl proto_push st)
    else some st
  | none => some (proto_push st data)

/-- `Client.set_init_state` resets the protocol state, `_last_seq`, the
records state machine and the emitter state; none of those fields are
part of this projection of the client state, and the outbound channel and
`_last_sent_data` are untouched. -/
def set_init_state (st : CliState) : CliState := st

/-- `Client.terminate` (the `with_close` socket shutdown is not
modelled): unless the last sent data was already `EOT`, push `EOT`
(without a timer) and return to the init state. -/
def terminate (st : CliState) : Option CliState :=
  if st.last_sent ≠ some [EOT] then (client_push st [EOT]).map set_init_state
  else some st

/-- `Client._retry_enq`: while attempts remain, consume one and push
`ENQ`; otherwise raise `Rejected` (`none`).  The result is the remaining
attempt count and the pushed data. -/
def _retry_enq (remain : Nat) : Option (Nat × List Nat) :=
  if remain ≠ 0 then some (remain - 1, [ENQ]) else none

/-- `Client.on_nak` in the `init` state delegates to `_retry_enq`. -/
def on_nak_in_init (remain : Nat) : Option (Nat × List Nat) :=
  _retry_enq remain

/-- Run `j` successive NAK replies against the retry logic, starting from
`remain` remaining attempts; `none` as soon as one of them raises
`Rejected`, otherwise the final count and the wire data each NAK
produced. -/
def nak_run : Nat → Nat → Option (Nat × List (List Nat))
  | remain, 0 => some (remain, [])
  | remain, j + 1 =>
    match on_nak_in_init remain with
    | none => none
    | some (r, out) => (nak_run r j).map fun p => (p.1, out :: p.2)

/-- First frame of the specification's chunk-reassembly scenario S6:
`\x02 1H|foo \x17 50 \r\n` (checksum `50` is valid for `1H|foo\x17`). -/
def s6_frame1 : List Nat := [2, 49, 72, 124, 102, 111, 111, 23, 53, 48, 13, 10]

/-- Second frame of scenario S6: `\x02 2|bar \r\x03 F3 \r\n` (checksum
`F3` is valid for `2|bar\r\x03`). -/
def s6_frame2 : List Nat := [2, 50, 124, 98, 97, 114, 13, 3, 70, 51, 13, 10]

/-! ## Theorems -/

/-! ### C9 — default encoding -/

/-- C9 counterexample: the claim says the default encoding of the codec
and of both engines is latin-1; `constants.ENCODING`, which all three
default to, is the string `'utf-8'`, not `'latin-1'`. -/
theorem C9_counterexample :
    codec_default_encoding ≠ "latin-1" ∧ protocol_default_encoding ≠ "latin-1"
      ∧ dispatcher_default_encoding ≠ "latin-1" := by
  refine ⟨?_, ?_, ?_⟩ <;> decide

/-- C9 (amended): the default encoding used by the codec and by both
engines, when no encoding is configured, is utf-8
(`constants.ENCODING = 'utf-8'`). -/
theorem C9_default_encoding :
    codec_default_encoding = "utf-8" ∧ protocol_default_encoding = "utf-8"
      ∧ dispatcher_default_encoding = "utf-8" :=
  ⟨rfl, rfl, rfl⟩

/-! ### C4 — record-flow state machine -/

/-- C4 counterexample: the specification's table makes `H → M` an edge,
but `_default_sm.is_acceptable` rejects it (the code's mapping has no
`M` entry at all, likewise no `S`). -/
theorem C4_counterexample :
    spec_edge (some 72) 77 = true ∧ is_acceptable (some 72) 77 = false := by
  decide

/-- C4 (amended): for every reachable previous state (`None` or a key of
the code's mapping) and every record type code, the state machine accepts
the transition exactly when it is an edge of the table the code
implements: `None→H`, `H→{C,P,L}`, `P→{C,O,L}`, `O→{C,P,O,R,L}`,
`R→{C,P,O,R,L}`, `C→` any key, `L→{H}` — `M` and `S` are accepted
nowhere (they are not keys of the mapping).  A rejected transition fails
the `assert` in `RecordsStateMachine.__call__` with `AssertionError`
(`InvalidRecordOrder` does not exist in the code base). -/
theorem C4_flow_table :
    ∀ prev ∈ (none :: [72, 80, 79, 82, 67, 76].map some : List (Option Nat)),
      ∀ next ∈ type_codes, is_acceptable prev next = code_edge prev next := by
  decide

/-- C4 witness: the amended table instantiated at the transition
`H → M`. -/
theorem C4_flow_table_witness :
    (some 72) ∈ (none :: [72, 80, 79, 82, 67, 76].map some : List (Option Nat))
      ∧ 77 ∈ type_codes ∧ is_acceptable (some 72) 77 = code_edge (some 72) 77 :=
  ⟨by decide, by decide, C4_flow_table (some 72) (by decide) 77 (by decide)⟩

/-! ### C6 — ENQ retries -/

/-- C6: with `retry_attempts = k`, the first `k` NAK replies to the sent
ENQ each make the client push another ENQ on the wire, and the
`(k+1)`-th NAK raises `Rejected` (modelled as `none`). -/
theorem C6_retry_enq :
    ∀ k : Nat, nak_run k k = some (0, List.replicate k [ENQ])
      ∧ nak_run k (k + 1) = none := by
  intro k
  induction k with
  | zero => exact ⟨rfl, rfl⟩
  | succ k ih =>
    have hr : on_nak_in_init (k + 1) = some (k, [ENQ]) := by
      simp [on_nak_in_init, _retry_enq]
    refine ⟨?_, ?_⟩
    · rw [nak_run, hr]
      simp [ih.1, List.replicate_succ]
    · rw [nak_run, hr]
      simp [ih.2]

/-! ### C7 — EOT handling on the server -/

/-- C7 counterexample: receiving EOT in transfer state with a non-empty
reassembly buffer leaves the buffer as it was — it does not become
empty as the claim states. -/
theorem C7_counterexample :
    (on_eot { is_transfer_state := true, chunks := [[72]],
              terminator := .delimiters [CRLF, [EOT]] }).map ReqState.chunks
      = some [[72]] ∧ ([[72]] : List (List Nat)) ≠ [] := by
  exact ⟨rfl, by decide⟩

/-- C7 (amended): when the server request handler receives EOT in
transfer state it resets its session state to init (neutral:
`_is_transfer_state = False`, single-byte terminator), but the chunk
reassembly buffer is left unchanged (only `discard_input_buffers`, run
for messages outside transfer state, clears it). -/
theorem C7_on_eot :
    ∀ st : ReqState, st.is_transfer_state = true →
      on_eot st = some { st with is_transfer_state := false, terminator := .count 1 } := by
  intro st h
  simp [on_eot, h]

/-- C7 witness: EOT in transfer state with a pending chunk. -/
theorem C7_on_eot_witness :
    on_eot { is_transfer_state := true, chunks := [s6_frame1], terminator := .count 1 }
      = some { is_transfer_state := false, chunks := [s6_frame1], terminator := .count 1 } :=
  C7_on_eot _ rfl

/-! ### C8 — client push with a message-size limit -/

/-- C8: the claim says a message no longer than `max_message_size` is
sent unchanged and nothing is silently discarded; in the code the inner
`if` of `Client.push` has no `else`, so data of length at most the limit
is dropped entirely — here a pushed `ENQ` never reaches the outbound
channel (the `DummyClient` tests expect `client.outbox[0] == ENQ`, and
the docstring promises the data is pushed). -/
theorem C8_push_drops_short_data :
    client_push { max_message_size := some 64, outbox := [], last_sent := none } [ENQ]
      = some { max_message_size := some 64, outbox := [], last_sent := none } := by
  decide

/-! ### C10 — no double EOT from terminate -/

/-- C10: if the last sent data was EOT, `terminate` pushes nothing (the
state is returned unchanged), and two successive `terminate` calls never
append more than one EOT to the outbound channel. -/
theorem C10_terminate_no_double_eot :
    ∀ st : CliState,
      (st.last_sent = some [EOT] → terminate st = some st) ∧
      (∀ st1 st2, terminate st = some st1 → terminate st1 = some st2 →
        List.count [EOT] (st2.outbox.drop st.outbox.length) ≤ 1) := by
  intro st
  refine ⟨fun h => by simp [terminate, h], ?_⟩
  intro st1 st2 h1 h2
  by_cases hl : st.last_sent = some [EOT]
  · simp [terminate, hl] at h1
    subst h1
    simp [terminate, hl] at h2
    subst h2
    simp
  · rcases hm : st.max_message_size with _ | m
    · simp [terminate, hl, client_push, hm, set_init_state] at h1
      subst h1
      simp [terminate, proto_push] at h2
      subst h2
      simp [proto_push, List.drop_left]
    · cases m with
      | zero =>
        have hsp : split [EOT] 0 = none := rfl
        simp [terminate, hl, client_push, hm, hsp] at h1
      | succ m =>
        have hle : ¬ ([EOT].length > m + 1) := by simp
        simp [terminate, hl, client_push, hm, hle, set_init_state] at h1
        subst h1
        simp [terminate, hl, client_push, hm, hle, set_init_state] at h2
        subst h2
        simp

/-- C10 witness: a client whose last sent data is EOT, run through both
parts of the theorem. -/
theorem C10_terminate_witness :
    (terminate { max_message_size := none, outbox := [[EOT]], last_sent := some [EOT] }
      = some { max_message_size := none, outbox := [[EOT]], last_sent := some [EOT] }) ∧
    List.count [EOT]
      ((({ max_message_size := none, outbox := [[EOT]],
           last_sent := some [EOT] } : CliState)).outbox.drop
        (({ max_message_size := none, outbox := [[EOT]],
            last_sent := some [EOT] } : CliState)).outbox.length) ≤ 1 :=
  ⟨(C10_terminate_no_double_eot _).1 rfl,
    (C10_terminate_no_double_eot _).2 _ _ ((C10_terminate_no_double_eot _).1 rfl)
      ((C10_terminate_no_double_eot _).1 rfl)⟩

/-! ### C5 — server chunk reassembly -/

/-- C5: on a valid chunked sequence (first frame ETB-terminated with a
valid checksum, second CR-ETX-terminated with a valid checksum) the
`handle_message` of the server request handler appends the first frame
to the reassembly buffer, but — because `is_chunked_transfer` is
computed once and then cached — it also appends the final frame and the
records dispatcher is never invoked (the claim requires exactly one
invocation with the rejoined message). -/
theorem C5_chunked_message_never_dispatched :
    is_chunked_message s6_frame1 = true ∧
    is_chunked_message s6_frame2 = false ∧
    (decode_message s6_frame1).isSome = true ∧
    (decode_message s6_frame2).isSome = true ∧
    handle_messages { is_chunked_transfer := none, chunks := [] } [s6_frame1, s6_frame2]
      = ({ is_chunked_transfer := some true, chunks := [s6_frame1, s6_frame2] }, []) := by
  decide

/-! ### C2 — checksum soundness -/

/-- C2 counterexample: the claim quantifies over every byte string, but
`make_checksum(b'')` evaluates `message[0]` and dies with `IndexError`
instead of returning two checksum characters. -/
theorem C2_counterexample : make_checksum [] = none := rfl

/-- Hex digits of a byte value: shape and value, by exhaustive check. -/
theorem hex_digit_pair_correct :
    ∀ v < 256,
      ((48 ≤ hex_digit (v / 16) ∧ hex_digit (v / 16) ≤ 57)
        ∨ (65 ≤ hex_digit (v / 16) ∧ hex_digit (v / 16) ≤ 70)) ∧
      ((48 ≤ hex_digit (v % 16) ∧ hex_digit (v % 16) ≤ 57)
        ∨ (65 ≤ hex_digit (v % 16) ∧ hex_digit (v % 16) ≤ 70)) ∧
      16 * hex_char_value (hex_digit (v / 16)) + hex_char_value (hex_digit (v % 16)) = v := by
  decide

/-- C2 (amended): for every non-empty byte string `s`, `make_checksum s`
returns exactly two characters, each an uppercase hexadecimal digit, and
the value they encode is `sum(bytes(s)) mod 256`. -/
theorem C2_checksum_sound :
    ∀ s : List Nat, s ≠ [] →
      make_checksum s = some (checksum_digits s) ∧
      (checksum_digits s).length = 2 ∧
      (∀ c ∈ checksum_digits s, (48 ≤ c ∧ c ≤ 57) ∨ (65 ≤ c ∧ c ≤ 70)) ∧
      hex_pair_value (checksum_digits s) = s.sum % 256 := by
  intro s hs
  obtain ⟨h1, h2, h3⟩ := hex_digit_pair_correct (s.sum % 256) (Nat.mod_lt _ (by norm_num))
  refine ⟨?_, rfl, ?_, ?_⟩
  · cases s with
    | nil => exact absurd rfl hs
    | cons a t => rfl
  · intro c hc
    rcases List.mem_pair.mp hc with rfl | rfl
    · exact h1
    · exact h2
  · simpa [checksum_digits, hex_pair_value] using h3

/-- C2 witness: the checksum of `b'\x02'` (the `test_short` vector of the
source's test suite: `'02'`). -/
theorem C2_checksum_sound_witness :
    make_checksum [2] = some (checksum_digits [2]) ∧
    (checksum_digits [2]).length = 2 ∧
    (∀ c ∈ checksum_digits [2], (48 ≤ c ∧ c ≤ 57) ∨ (65 ≤ c ∧ c ≤ 70)) ∧
    hex_pair_value (checksum_digits [2]) = List.sum [2] % 256 :=
  C2_checksum_sound [2] (by decide)

/-! ### C3 — chunk envelope lengths (counterexample) -/

/-- C3 counterexample: splitting the 11-byte message for the record list
`[['A','B']]` with `size = 8` yields chunks of lengths `8, 8, 9` — the
terminal chunk carries the two-byte `CR ETX` terminator where the others
carry the one-byte `ETB`, so its envelope is one byte larger and exceeds
`size` whenever the final piece is full. -/
theorem C3_counterexample :
    (split (encode_message 1 [[Field.str [65], Field.str [66]]]) 8).map
        (List.map List.length)
      = some [8, 8, 9] := by
  decide

/-! ### C3 — chunk envelope lengths (amended) -/

/-- Every piece `make_chunks` cuts is at most `n` bytes long. -/
theorem make_chunks_piece_le (s : List Nat) (n : Nat) :
    ∀ p ∈ make_chunks s n, p.length ≤ n := by
  intro p hp
  unfold make_chunks at hp
  split at hp
  · simp at hp
  · simp only [List.mem_map] at hp
    obtain ⟨i, _, rfl⟩ := hp
    simp [List.length_take]

/-- The second component of an `enumFrom` entry is an element of the
underlying list. -/
theorem mem_enumFrom_snd {α : Type} :
    ∀ (l : List α) (n : Nat) (p : Nat × α), p ∈ List.enumFrom n l → p.2 ∈ l := by
  intro l
  induction l with
  | nil => intro n p hp; simp only [List.enumFrom, List.not_mem_nil] at hp
  | cons a t ih =>
    intro n p hp
    simp only [List.enumFrom, List.mem_cons] at hp
    rcases hp with rfl | hp
    · exact List.mem_cons_self _ _
    · exact List.mem_cons_of_mem _ (ih _ _ hp)

/-- Byte length of a non-terminal chunk: payload plus the 7 envelope
bytes (STX, digit, ETB, two checksum characters, CRLF). -/
theorem chunk_frame_mid_length (sd : Nat) (piece : List Nat) :
    (chunk_frame_mid sd piece).length = piece.length + 7 := by
  simp [chunk_frame_mid, checksum_digits]

/-- Byte length of the terminal chunk: payload plus the 8 envelope bytes
(STX, digit, CR, ETX, two checksum characters, CRLF). -/
theorem chunk_frame_last_length (sd : Nat) (piece : List Nat) :
    (chunk_frame_last sd piece).length = piece.length + 8 := by
  simp [chunk_frame_last, checksum_digits]

/-- C3 (amended): every chunk list `split` actually produces is
non-empty; every non-terminal chunk is at most `size` bytes and is a
frame terminated by ETB followed by its checksum and CRLF; the terminal
chunk is a frame terminated by CR ETX followed by its checksum and CRLF
and is at most `size + 1` bytes — the claimed bound `size` fails for it
exactly when the final piece is full (see the counterexample), because
its envelope is 8 bytes against the 7 of the others. -/
theorem C3_chunk_envelopes :
    ∀ msg size chunks, split msg size = some chunks →
      chunks ≠ [] ∧
      (∀ c ∈ chunks.dropLast, c.length ≤ size ∧ ∃ sd piece, c = chunk_frame_mid sd piece) ∧
      (∀ c, chunks.getLast? = some c →
        c.length ≤ size + 1 ∧ ∃ sd piece, c = chunk_frame_last sd piece) := by
  intro msg size chunks h
  unfold split at h
  rcases hd : (msg.drop 1).take 1 with _ | ⟨d, rest⟩
  · rw [hd] at h; exact absurd h (by simp)
  · rcases rest with _ | ⟨e, rest2⟩
    · rw [hd] at h
      dsimp only at h
      by_cases hcond : msg.take 1 = [STX] ∧ (48 ≤ d ∧ d ≤ 57)
          ∧ msg.drop (msg.length - 2) = [CR, LF] ∧ 7 ≤ size
      case neg => rw [if_neg hcond] at h; exact absurd h (by simp)
      case pos =>
        rw [if_pos hcond] at h
        rcases hlast : (make_chunks ((msg.drop 2).take (msg.length - 8)) (size - 7)).getLast?
          with _ | last
        · rw [hlast] at h; exact absurd h (by simp)
        · rw [hlast] at h
          simp only [Option.some.injEq] at h
          subst h
          have hsize : 7 ≤ size := hcond.2.2.2
          refine ⟨by simp, ?_, ?_⟩
          · intro c hc
            rw [List.dropLast_concat] at hc
            simp only [List.mem_map] at hc
            obtain ⟨p, hp, rfl⟩ := hc
            have hmem : p.2 ∈ make_chunks ((msg.drop 2).take (msg.length - 8)) (size - 7) :=
              (List.dropLast_sublist _).subset (mem_enumFrom_snd _ _ _ hp)
            have hple := make_chunks_piece_le _ _ _ hmem
            refine ⟨?_, _, _, rfl⟩
            rw [chunk_frame_mid_length]
            omega
          · intro c hc
            rw [List.getLast?_concat] at hc
            simp only [Option.some.injEq] at hc
            subst hc
            have hmem : last ∈ make_chunks ((msg.drop 2).take (msg.length - 8)) (size - 7) :=
              List.mem_of_getLast?_eq_some hlast
            have hple := make_chunks_piece_le _ _ _ hmem
            refine ⟨?_, _, _, rfl⟩
            rw [chunk_frame_last_length]
            omega
    · rw [hd] at h; exact absurd h (by simp)

/-- C3 witness: the amended envelope facts instantiated on the
counterexample split (`size = 8`, chunk lengths `8, 8, 9`). -/
theorem C3_chunk_envelopes_witness :
    ([[2, 49, 65, 23, 56, 57, 13, 10], [2, 50, 124, 23, 67, 53, 13, 10],
        [2, 51, 66, 13, 3, 56, 53, 13, 10]] : List (List Nat)) ≠ [] ∧
    (∀ c ∈ ([[2, 49, 65, 23, 56, 57, 13, 10], [2, 50, 124, 23, 67, 53, 13, 10],
        [2, 51, 66, 13, 3, 56, 53, 13, 10]] : List (List Nat)).dropLast,
      c.length ≤ 8 ∧ ∃ sd piece, c = chunk_frame_mid sd piece) ∧
    (∀ c, ([[2, 49, 65, 23, 56, 57, 13, 10], [2, 50, 124, 23, 67, 53, 13, 10],
        [2, 51, 66, 13, 3, 56, 53, 13, 10]] : List (List Nat)).getLast? = some c →
      c.length ≤ 8 + 1 ∧ ∃ sd piece, c = chunk_frame_last sd piece) :=
  C3_chunk_envelopes (encode_message 1 [[Field.str [65], Field.str [66]]]) 8 _ (by decide)

/-! ### C1 — helper lemmas about one-byte joins and strips -/

theorem inter_nil (x : Nat) : [x].intercalate ([] : List (List Nat)) = [] := rfl

theorem inter_single (x : Nat) (a : List Nat) : [x].intercalate [a] = a := by
  simp [List.intercalate]

theorem inter_cons (x : Nat) (a : List Nat) {L : List (List Nat)} (h : L ≠ []) :
    [x].intercalate (a :: L) = a ++ x :: [x].intercalate L := by
  cases L with
  | nil => exact absurd rfl h
  | cons b L2 => simp [List.intercalate, List.intersperse]

theorem mem_inter {x b : Nat} :
    ∀ {L : List (List Nat)}, b ∈ [x].intercalate L → b = x ∨ ∃ l ∈ L, b ∈ l := by
  intro L
  induction L with
  | nil => intro h; rw [inter_nil] at h; exact absurd h (List.not_mem_nil _)
  | cons a L ih =>
    intro h
    cases L with
    | nil =>
      rw [inter_single] at h
      exact Or.inr ⟨a, List.mem_cons_self _ _, h⟩
    | cons c L2 =>
      rw [inter_cons x a (by simp)] at h
      rcases List.mem_append.mp h with h1 | h2
      · exact Or.inr ⟨a, List.mem_cons_self _ _, h1⟩
      · rcases List.mem_cons.mp h2 with rfl | h3
        · exact Or.inl rfl
        · rcases ih h3 with h4 | ⟨l, hl, hbl⟩
          · exact Or.inl h4
          · exact Or.inr ⟨l, List.mem_cons_of_mem _ hl, hbl⟩

theorem not_mem_inter {x b : Nat} {L : List (List Nat)} (hbx : b ≠ x)
    (h : ∀ l ∈ L, b ∉ l) : b ∉ [x].intercalate L := by
  intro hmem
  rcases mem_inter hmem with rfl | ⟨l, hl, hbl⟩
  · exact hbx rfl
  · exact h l hl hbl

theorem mem_inter_self (x : Nat) (a c : List Nat) (t : List (List Nat)) :
    x ∈ [x].intercalate (a :: c :: t) := by
  rw [inter_cons x a (by simp)]
  simp

theorem inter_cons₂_ne_nil (x : Nat) (a c : List Nat) (t : List (List Nat)) :
    [x].intercalate (a :: c :: t) ≠ [] := by
  rw [inter_cons x a (by simp)]
  simp

theorem rstrip_eq_of_not_mem {x : Nat} {l : List Nat} (h : x ∉ l) : rstrip x l = l := by
  unfold rstrip
  have hd : l.reverse.dropWhile (fun b => b == x) = l.reverse := by
    cases hr : l.reverse with
    | nil => rfl
    | cons a t =>
      have ha : a ≠ x := by
        intro hax
        exact h (by rw [← List.mem_reverse, hr, hax]; exact List.mem_cons_self _ _)
      rw [List.dropWhile_cons, if_neg (by simp [ha])]
  rw [hd, List.reverse_reverse]

theorem rstrip_append_absorb {x : Nat} {w J : List Nat} (h : rstrip x J = []) :
    rstrip x (w ++ x :: J) = rstrip x w := by
  unfold rstrip at h ⊢
  have hJ : J.reverse.dropWhile (fun b => b == x) = [] := by
    have := congrArg List.reverse h
    simpa using this
  rw [List.reverse_append, List.reverse_cons, List.append_assoc, List.dropWhile_append]
  simp [hJ, List.dropWhile_cons]

theorem rstrip_append_keep {x : Nat} {w J : List Nat} (h : rstrip x J ≠ []) :
    rstrip x (w ++ x :: J) = w ++ x :: rstrip x J := by
  unfold rstrip at h ⊢
  have hJ : ¬ J.reverse.dropWhile (fun b => b == x) = [] := by
    intro hc
    exact h (by simp [hc])
  rw [List.reverse_append, List.reverse_cons, List.append_assoc, List.dropWhile_append]
  rw [if_neg (by simpa using hJ)]
  simp

theorem strip_cons (o : Option (List Nat)) (rest : List (Option (List Nat))) :
    strip_trailing_empty (o :: rest) =
      if strip_trailing_empty rest = [] then
        (if encode_scalar o = [] then [] else [o])
      else o :: strip_trailing_empty rest := by
  have hrev : strip_trailing_empty rest = []
      ↔ rest.reverse.dropWhile (fun o => encode_scalar o == []) = [] := by
    unfold strip_trailing_empty
    constructor
    · intro hh
      have := congrArg List.reverse hh
      simpa using this
    · intro hh
      rw [hh]
      rfl
  unfold strip_trailing_empty
  rw [List.reverse_cons, List.dropWhile_append]
  by_cases h : rest.reverse.dropWhile (fun o => encode_scalar o == []) = []
  · rw [if_pos (by rw [h]; rfl),
      if_pos (show (rest.reverse.dropWhile (fun o => encode_scalar o == [])).reverse = [] by
        rw [h]; rfl)]
    by_cases he : encode_scalar o = []
    · rw [if_pos he]
      show (List.dropWhile _ [o]).reverse = []
      rw [List.dropWhile_cons, if_pos (by simp [he])]
      rfl
    · rw [if_neg he]
      show (List.dropWhile _ [o]).reverse = [o]
      rw [List.dropWhile_cons, if_neg (by simp [he])]
      rfl
  · rw [if_neg (fun hc => h (by simpa using hc)),
      if_neg (fun hc => h (by simpa using congrArg List.reverse hc))]
    rw [List.reverse_append]
    rfl

theorem strip_subset {c : List (Option (List Nat))} :
    ∀ o ∈ strip_trailing_empty c, o ∈ c := by
  intro o ho
  unfold strip_trailing_empty at ho
  rw [List.mem_reverse] at ho
  have := (List.dropWhile_sublist _).subset ho
  exact List.mem_reverse.mp this

theorem strip_last_ne_empty {c l : List (Option (List Nat))} {o : Option (List Nat)}
    (h : strip_trailing_empty c = l ++ [o]) : encode_scalar o ≠ [] := by
  have h1 : (strip_trailing_empty c).getLast? = some o := by
    rw [h]; exact List.getLast?_concat _
  unfold strip_trailing_empty at h1
  rw [List.getLast?_reverse] at h1
  have h2 := List.head?_dropWhile_not (fun o => encode_scalar o == []) c.reverse
  rw [h1] at h2
  simpa using h2

theorem encode_component_strip (c : List (Option (List Nat)))
    (hc : ∀ o ∈ c, COMPONENT_SEP ∉ encode_scalar o) :
    encode_component c
      = [COMPONENT_SEP].intercalate ((strip_trailing_empty c).map encode_scalar) := by
  induction c with
  | nil => rfl
  | cons o rest ih =>
    have hrest : ∀ u ∈ rest, COMPONENT_SEP ∉ encode_scalar u :=
      fun u hu => hc u (List.mem_cons_of_mem _ hu)
    have ho94 : COMPONENT_SEP ∉ encode_scalar o := hc o (List.mem_cons_self _ _)
    rw [strip_cons]
    cases rest with
    | nil =>
      rw [if_pos (show strip_trailing_empty [] = [] from rfl)]
      by_cases he : encode_scalar o = []
      · rw [if_pos he]
        show rstrip COMPONENT_SEP ([COMPONENT_SEP].intercalate [encode_scalar o]) = _
        rw [inter_single, he]
        rfl
      · rw [if_neg he]
        show rstrip COMPONENT_SEP ([COMPONENT_SEP].intercalate [encode_scalar o]) = _
        rw [inter_single, rstrip_eq_of_not_mem ho94]
        simp only [List.map_cons, List.map_nil]
        rw [inter_single]
    | cons r rs =>
      have hJdef : encode_component (r :: rs)
          = rstrip COMPONENT_SEP ([COMPONENT_SEP].intercalate ((r :: rs).map encode_scalar)) :=
        rfl
      have hsplit : [COMPONENT_SEP].intercalate ((o :: r :: rs).map encode_scalar)
          = encode_scalar o
            ++ COMPONENT_SEP :: [COMPONENT_SEP].intercalate ((r :: rs).map encode_scalar) := by
        rw [List.map_cons]
        exact inter_cons _ _ (by simp)
      by_cases hsr : strip_trailing_empty (r :: rs) = []
      · have hJnil : rstrip COMPONENT_SEP
            ([COMPONENT_SEP].intercalate ((r :: rs).map encode_scalar)) = [] := by
          rw [← hJdef, ih hrest, hsr]
          rfl
        rw [if_pos hsr]
        show rstrip COMPONENT_SEP ([COMPONENT_SEP].intercalate ((o :: r :: rs).map encode_scalar))
          = _
        rw [hsplit, rstrip_append_absorb hJnil]
        by_cases he : encode_scalar o = []
        · rw [if_pos he, he]
          rfl
        · rw [if_neg he, rstrip_eq_of_not_mem ho94]
          simp only [List.map_cons, List.map_nil]
          rw [inter_single]
      · have hJne : rstrip COMPONENT_SEP
            ([COMPONENT_SEP].intercalate ((r :: rs).map encode_scalar)) ≠ [] := by
          rw [← hJdef, ih hrest]
          rcases hst : strip_trailing_empty (r :: rs) with _ | ⟨o1, t1⟩
          · exact absurd hst hsr
          · cases t1 with
            | nil =>
              rw [List.map_singleton, inter_single]
              exact strip_last_ne_empty (l := []) (by simpa using hst)
            | cons o2 t2 =>
              rw [List.map_cons, List.map_cons]
              exact inter_cons₂_ne_nil _ _ _ _
        rw [if_neg hsr]
        show rstrip COMPONENT_SEP ([COMPONENT_SEP].intercalate ((o :: r :: rs).map encode_scalar))
          = _
        rw [hsplit, rstrip_append_keep hJne, ← hJdef, ih hrest, List.map_cons,
          inter_cons _ _ (by simpa using hsr)]

/-! ### C1 — separator bytes never occur inside encoded pieces -/

theorem rstrip_subset {x : Nat} {l : List Nat} : ∀ b ∈ rstrip x l, b ∈ l := by
  intro b hb
  unfold rstrip at hb
  rw [List.mem_reverse] at hb
  exact List.mem_reverse.mp ((List.dropWhile_sublist _).subset hb)

theorem wf_scalar_not_mem {s : List Nat} (h : wf_scalar s) {b : Nat}
    (hb : b = RECORD_SEP ∨ b = FIELD_SEP ∨ b = COMPONENT_SEP ∨ b = REPEAT_SEP) :
    b ∉ s := by
  intro hm
  obtain ⟨_, h1, h2, h3, h4⟩ := h b hm
  rcases hb with rfl | rfl | rfl | rfl
  exacts [h1 rfl, h2 rfl, h3 rfl, h4 rfl]

theorem wf_opt_not_mem {o : Option (List Nat)} (h : wf_opt o) {b : Nat}
    (hb : b = RECORD_SEP ∨ b = FIELD_SEP ∨ b = COMPONENT_SEP ∨ b = REPEAT_SEP) :
    b ∉ encode_scalar o := by
  cases o with
  | none => exact List.not_mem_nil _
  | some s => exact wf_scalar_not_mem h hb

theorem encode_component_not_mem {c : List (Option (List Nat))} (h : ∀ o ∈ c, wf_opt o)
    {b : Nat} (hb : b = RECORD_SEP ∨ b = FIELD_SEP ∨ b = COMPONENT_SEP ∨ b = REPEAT_SEP)
    (hb94 : b ≠ COMPONENT_SEP) : b ∉ encode_component c := by
  intro hm
  have hsub : b ∈ [COMPONENT_SEP].intercalate (c.map encode_scalar) := rstrip_subset b hm
  rcases mem_inter hsub with rfl | ⟨l, hl, hbl⟩
  · exact hb94 rfl
  · obtain ⟨o, ho, rfl⟩ := List.mem_map.mp hl
    exact wf_opt_not_mem (h o ho) hb hbl

theorem encode_field_not_mem {f : Field} (h : wf_field f) {b : Nat}
    (hb : b = RECORD_SEP ∨ b = FIELD_SEP ∨ b = COMPONENT_SEP ∨ b = REPEAT_SEP)
    (hb94 : b ≠ COMPONENT_SEP) (hb92 : b ≠ REPEAT_SEP) : b ∉ encode_field f := by
  cases f with
  | null => exact List.not_mem_nil _
  | str s => exact wf_scalar_not_mem h hb
  | comp c => exact encode_component_not_mem h hb hb94
  | rep r =>
    apply not_mem_inter hb92
    intro l hl
    obtain ⟨c, hc, rfl⟩ := List.mem_map.mp hl
    exact encode_component_not_mem (h c hc) hb hb94

theorem encode_record_not_mem {rec : List Field} (h : ∀ f ∈ rec, wf_field f) {b : Nat}
    (hb : b = RECORD_SEP ∨ b = FIELD_SEP ∨ b = COMPONENT_SEP ∨ b = REPEAT_SEP)
    (hb94 : b ≠ COMPONENT_SEP) (hb92 : b ≠ REPEAT_SEP) (hb124 : b ≠ FIELD_SEP) :
    b ∉ encode_record rec := by
  apply not_mem_inter hb124
  intro l hl
  obtain ⟨f, hf, rfl⟩ := List.mem_map.mp hl
  exact encode_field_not_mem (h f hf) hb hb94 hb92

/-! ### C1 — decoding inverts encoding up to normalization -/

theorem decode_encode_component_items (c : List (Option (List Nat)))
    (h : ∀ o ∈ c, wf_opt o) :
    decode_component (encode_component c) = norm_component_items c := by
  rw [encode_component_strip c
    (fun o ho => wf_opt_not_mem (h o ho) (Or.inr (Or.inr (Or.inl rfl))))]
  unfold norm_component_items
  rcases hst : strip_trailing_empty c with _ | ⟨o1, t1⟩
  · rw [if_pos rfl]
    rfl
  · rw [if_neg (by simp)]
    unfold decode_component
    rw [List.splitOn_intercalate ((o1 :: t1).map encode_scalar) COMPONENT_SEP ?pieces ?nonnil]
    case pieces =>
      intro l hl
      obtain ⟨o, ho, rfl⟩ := List.mem_map.mp hl
      have hoc : o ∈ c := strip_subset o (hst ▸ ho)
      exact wf_opt_not_mem (h o hoc) (Or.inr (Or.inr (Or.inl rfl)))
    case nonnil => simp
    rw [List.map_map]
    apply List.map_congr_left
    intro o _
    cases o with
    | none => rfl
    | some s =>
      show (if s = [] then none else some s) = norm_scalar (some s)
      rfl

theorem decode_encode_component_field (c : List (Option (List Nat)))
    (h : ∀ o ∈ c, wf_opt o) :
    decode_item (encode_component c) = norm_component c := by
  have henc := encode_component_strip c
    (fun o ho => wf_opt_not_mem (h o ho) (Or.inr (Or.inr (Or.inl rfl))))
  have h92 : REPEAT_SEP ∉ encode_component c :=
    encode_component_not_mem h (Or.inr (Or.inr (Or.inr rfl))) (by decide)
  rcases hst : strip_trailing_empty c with _ | ⟨o1, t1⟩
  · have hnil : encode_component c = [] := by rw [henc, hst]; rfl
    rw [hnil]
    unfold norm_component
    rw [hst]
    rfl
  · cases t1 with
    | nil =>
      have hne := strip_last_ne_empty (l := []) (c := c) (by simpa using hst)
      rcases o1 with _ | s
      · exact absurd rfl hne
      · have hencs : encode_component c = s := by
          rw [henc, hst]
          simp only [List.map_cons, List.map_nil]
          rw [inter_single]
          rfl
        have hs : wf_scalar s := h (some s) (strip_subset (some s) (hst ▸ List.mem_cons_self _ _))
        have hsne : s ≠ [] := hne
        rw [hencs]
        unfold decode_item norm_component
        rw [hst, if_neg (wf_scalar_not_mem hs (Or.inr (Or.inr (Or.inr rfl)))),
          if_neg (wf_scalar_not_mem hs (Or.inr (Or.inr (Or.inl rfl)))), if_neg hsne]
    | cons o2 t2 =>
      have h94mem : COMPONENT_SEP ∈ encode_component c := by
        rw [henc, hst]
        simp only [List.map_cons]
        exact mem_inter_self _ _ _ _
      unfold decode_item
      rw [if_neg h92, if_pos h94mem, decode_encode_component_items c h]
      unfold norm_component_items norm_component
      rw [hst, if_neg (by simp)]
      cases o1 <;> rfl

theorem decode_encode_field (f : Field) (h : wf_field f) :
    decode_item (encode_field f) = norm_field f := by
  cases f with
  | null => rfl
  | str s =>
    by_cases hs : s = []
    · subst hs; rfl
    · have h1 : decode_item (encode_field (Field.str s)) = Field.str s := by
        show decode_item s = Field.str s
        unfold decode_item
        rw [if_neg (wf_scalar_not_mem h (Or.inr (Or.inr (Or.inr rfl)))),
          if_neg (wf_scalar_not_mem h (Or.inr (Or.inr (Or.inl rfl)))), if_neg hs]
      rw [h1]
      simp only [norm_field]
      rw [if_neg hs]
  | comp c => exact decode_encode_component_field c h
  | rep r =>
    rcases r with _ | ⟨c1, t⟩
    · rfl
    · rcases t with _ | ⟨c2, t2⟩
      · have hone : encode_field (.rep [c1]) = encode_component c1 := by
          unfold encode_field encode_repeated_component
          simp only [List.map_cons, List.map_nil]
          rw [inter_single]
        rw [hone, decode_encode_component_field c1 (h c1 (List.mem_cons_self _ _))]
        rfl
      · have hpieces : ∀ l ∈ (c1 :: c2 :: t2).map encode_component, REPEAT_SEP ∉ l := by
          intro l hl
          obtain ⟨c, hc, rfl⟩ := List.mem_map.mp hl
          exact encode_component_not_mem (h c hc) (Or.inr (Or.inr (Or.inr rfl))) (by decide)
        have h92mem : REPEAT_SEP ∈ encode_field (.rep (c1 :: c2 :: t2)) := by
          unfold encode_field encode_repeated_component
          simp only [List.map_cons]
          exact mem_inter_self _ _ _ _
        unfold decode_item
        rw [if_pos h92mem]
        show Field.rep (decode_repeated_component
            ([REPEAT_SEP].intercalate ((c1 :: c2 :: t2).map encode_component))) = _
        unfold decode_repeated_component
        rw [List.splitOn_intercalate ((c1 :: c2 :: t2).map encode_component) REPEAT_SEP hpieces
          (by simp), List.map_map]
        have : List.map (decode_component ∘ encode_component) (c1 :: c2 :: t2)
            = List.map norm_component_items (c1 :: c2 :: t2) :=
          List.map_congr_left fun c hc => decode_encode_component_items c (h c hc)
        rw [this]
        rfl

theorem decode_encode_record (rec : List Field) (h : wf_record rec) :
    decode_record (encode_record rec) = rec.map norm_field := by
  obtain ⟨hne, hf⟩ := h
  unfold decode_record encode_record
  rw [List.splitOn_intercalate (rec.map encode_field) FIELD_SEP ?pieces ?nonnil]
  case pieces =>
    intro l hl
    obtain ⟨f, hfm, rfl⟩ := List.mem_map.mp hl
    exact encode_field_not_mem (hf f hfm) (Or.inr (Or.inl rfl)) (by decide) (by decide)
  case nonnil => simpa using hne
  rw [List.map_map]
  exact List.map_congr_left fun f hfm => decode_encode_field f (hf f hfm)

/-- Peeling the `STX … CS CRLF` envelope: `decode_message` on a message
assembled around any non-empty frame verifies the checksum and hands the
frame to `decode_frame`. -/
theorem decode_message_envelope (Fr : List Nat) (hne : Fr ≠ []) :
    decode_message (STX :: Fr ++ checksum_digits Fr ++ [CR, LF])
      = (decode_frame Fr).map fun sr => (sr.1, sr.2, checksum_digits Fr) := by
  have hClen : (checksum_digits Fr).length = 2 := rfl
  set msg := STX :: Fr ++ checksum_digits Fr ++ [CR, LF] with hmsg
  have hlen : msg.length = Fr.length + 5 := by
    rw [hmsg]
    simp [hClen]
  unfold decode_message
  have henv : msg.take 1 = [STX] ∧ msg.drop (msg.length - 2) = [CR, LF] := by
    refine ⟨by rw [hmsg]; rfl, ?_⟩
    rw [hlen, hmsg]
    have hassoc : STX :: Fr ++ checksum_digits Fr ++ [CR, LF]
        = (STX :: (Fr ++ checksum_digits Fr)) ++ [CR, LF] := by simp
    rw [hassoc]
    apply List.drop_left'
    simp [hClen]
  rw [if_pos henv]
  have h1 : (msg.drop 1).take (msg.length - 3) = Fr ++ checksum_digits Fr := by
    rw [hlen, hmsg]
    have hassoc : STX :: Fr ++ checksum_digits Fr ++ [CR, LF]
        = STX :: ((Fr ++ checksum_digits Fr) ++ [CR, LF]) := by simp
    rw [hassoc]
    show ((Fr ++ checksum_digits Fr) ++ [CR, LF]).take (Fr.length + 5 - 3)
      = Fr ++ checksum_digits Fr
    apply List.take_left'
    simp [hClen]
  have h2 : (Fr ++ checksum_digits Fr).take ((Fr ++ checksum_digits Fr).length - 2) = Fr := by
    apply List.take_left'
    simp [hClen]
  have h3 : (Fr ++ checksum_digits Fr).drop ((Fr ++ checksum_digits Fr).length - 2)
      = checksum_digits Fr := by
    apply List.drop_left'
    simp [hClen]
  simp only [h1, h2, h3]
  have h4 : make_checksum Fr = some (checksum_digits Fr) := by
    cases Fr with
    | nil => exact absurd rfl hne
    | cons a t => rfl
  rw [if_pos h4]

/-- Decoding the frame `encode_message` assembles for a well-typed
record list recovers `n mod 8` and the normalized records. -/
theorem decode_frame_of_message_frame (R : List (List Field)) (n : Nat)
    (hRne : R ≠ []) (hR : ∀ rec ∈ R, wf_record rec) :
    decode_frame (message_frame n R) = some (n % 8, normalize R) := by
  have hassoc : message_frame n R
      = (digit_byte (n % 8) :: [RECORD_SEP].intercalate (R.map encode_record)) ++ [CR, ETX] := by
    unfold message_frame
    simp
  unfold decode_frame
  rw [if_pos ?hterm]
  case hterm =>
    rw [hassoc]
    apply List.drop_left'
    simp
  have htake : (message_frame n R).take ((message_frame n R).length - 2)
      = digit_byte (n % 8) :: [RECORD_SEP].intercalate (R.map encode_record) := by
    rw [hassoc]
    apply List.take_left'
    simp
  rw [htake]
  have hdig : 48 ≤ digit_byte (n % 8) ∧ digit_byte (n % 8) ≤ 57 := by
    unfold digit_byte
    have := Nat.mod_lt n (show 0 < 8 by norm_num)
    omega
  show (if 48 ≤ digit_byte (n % 8) ∧ digit_byte (n % 8) ≤ 57
      then some (digit_byte (n % 8) - 48,
        (([RECORD_SEP].intercalate (R.map encode_record)).splitOn RECORD_SEP).map decode_record)
      else none) = some (n % 8, normalize R)
  rw [if_pos hdig]
  have hseq : digit_byte (n % 8) - 48 = n % 8 := by
    unfold digit_byte
    omega
  have hsplit : ([RECORD_SEP].intercalate (R.map encode_record)).splitOn RECORD_SEP
      = R.map encode_record := by
    apply List.splitOn_intercalate (R.map encode_record) RECORD_SEP
    · intro l hl
      obtain ⟨rec, hrec, rfl⟩ := List.mem_map.mp hl
      exact encode_record_not_mem (hR rec hrec).2 (Or.inl rfl) (by decide) (by decide) (by decide)
    · simpa using hRne
  rw [hseq, hsplit, List.map_map]
  have hmaps : List.map (decode_record ∘ encode_record) R = List.map (List.map norm_field) R :=
    List.map_congr_left fun rec hrec => decode_encode_record rec (hR rec hrec)
  rw [hmaps]
  rfl

/-- C1: for every well-typed record list `R` (non-empty records whose
scalars avoid the separator bytes — the spec's "well-typed") and every
sequence number `n`, decoding the encoded message yields `n mod 8`, `R`
after normalization of trailing empty components and of absent/empty
values, and the transmitted checksum of the frame. -/
theorem C1_frame_roundtrip :
    ∀ (R : List (List Field)) (n : Nat), wf_records R →
      decode_message (encode_message n R)
        = some (n % 8, normalize R, checksum_digits (message_frame n R)) := by
  intro R n h
  obtain ⟨hRne, hR⟩ := h
  have hne : message_frame n R ≠ [] := by
    unfold message_frame
    exact List.cons_ne_nil _ _
  have henv := decode_message_envelope (message_frame n R) hne
  rw [show encode_message n R
      = STX :: message_frame n R ++ checksum_digits (message_frame n R) ++ [CR, LF] from rfl,
    henv, decode_frame_of_message_frame R n hRne hR]
  rfl

/-- C1 witness: the roundtrip at sequence number 9 on a concrete
two-record list exercising scalars, components and absent values. -/
theorem C1_frame_roundtrip_witness :
    wf_records [[Field.str [72], Field.comp [some [65], some [66], none]],
        [Field.str [76], Field.null, Field.str [49]]] ∧
    decode_message (encode_message 9
        [[Field.str [72], Field.comp [some [65], some [66], none]],
         [Field.str [76], Field.null, Field.str [49]]])
      = some (9 % 8,
          normalize [[Field.str [72], Field.comp [some [65], some [66], none]],
            [Field.str [76], Field.null, Field.str [49]]],
          checksum_digits (message_frame 9
            [[Field.str [72], Field.comp [some [65], some [66], none]],
             [Field.str [76], Field.null, Field.str [49]]])) :=
  ⟨by decide, C1_frame_roundtrip _ 9 (by decide)⟩

end Astm
